import Mathlib

/-!
Verification of the r256 library (r256.h): 256-bit signed fixed-point
arithmetic in Q128.128 format.

The embedding models the C type `R256 { R256_U128 lo; R256_U128 hi; }` as a
pair of natural numbers, each intended to be `< 2^128` (predicate `R256.wf`).
All C unsigned arithmetic is translated to `Nat` arithmetic with explicit
`% 2^128` (helper `u128`) or `% 2^64` (helper `u64`) truncation exactly where
the C types truncate.  Loops whose C termination is by a decreasing counter
are translated with an explicit fuel argument that provably never runs out
(the fuel is one more than the quantity the loop strictly decreases).
-/

set_option maxRecDepth 100000

namespace R256Spec

/-- A 256-bit value as stored by r256.h: `lo` holds the fractional 128 bits,
`hi` the integer 128 bits (bit 127 of `hi` is the sign bit). -/
structure R256 where
  lo : Nat
  hi : Nat
deriving DecidableEq, Repr

/-- Both limbs fit in 128 bits, as the C type `R256_U128` guarantees. -/
def R256.wf (v : R256) : Prop := v.lo < 2^128 ∧ v.hi < 2^128

instance (v : R256) : Decidable v.wf :=
  inferInstanceAs (Decidable (v.lo < 2^128 ∧ v.hi < 2^128))

/-- Truncation to an unsigned 128-bit value (a `(R256_U128)` cast). -/
def u128 (x : Nat) : Nat := x % 2^128

/-- Truncation to an unsigned 64-bit value (a `(R256_U64)` cast). -/
def u64 (x : Nat) : Nat := x % 2^64

/-- Bitwise complement on 128 bits (`~x` at type `R256_U128`). -/
def u128Not (x : Nat) : Nat := 2^128 - 1 - u128 x

/-- 128-bit wrapping subtraction `a - b` at type `R256_U128`. -/
def u128sub (a b : Nat) : Nat := (u128 a + (2^128 - u128 b)) % 2^128

/-- Signed interpretation of a 128-bit limb (a `(R256_S128)` cast). -/
def s128 (x : Nat) : Int := if u128 x < 2^127 then (u128 x : Int) else (u128 x : Int) - 2^128

/-- The 256-bit unsigned integer a value denotes: `hi * 2^128 + lo`. -/
def R256.toN (v : R256) : Nat := v.hi * 2^128 + v.lo

/-- Constant `R256_min`: bit pattern hi = 2^127, lo = 0. -/
def R256_min : R256 := ⟨0, 2^127⟩

/-- Constant `R256_max`: all-ones lo, hi = 2^127 - 1. -/
def R256_max : R256 := ⟨2^128 - 1, 2^127 - 1⟩

/-- Constant `R256_smallest`: lo = 1, hi = 0. -/
def R256_smallest : R256 := ⟨1, 0⟩

/-- Constant `R256_zero`. -/
def R256_zero : R256 := ⟨0, 0⟩

/-- Constant `R256_one`. -/
def R256_one : R256 := ⟨0, 1⟩

/-- Global decimal separator `R256_decimal` (initial value; the claims under
verification never reassign it). -/
def R256_decimal : Char := '.'

/-- `r256IsNeg`: test of the sign bit, `(R256_S128)v->hi < 0`. -/
def r256IsNeg (v : R256) : Bool := decide (2^127 ≤ u128 v.hi)

/-- `r256__neg`: two's-complement negation over the 256-bit pattern. -/
def r256__neg (v : R256) : R256 :=
  if v.lo ≠ 0 then
    ⟨u128 (u128Not v.lo + 1), u128Not v.hi⟩
  else
    ⟨0, u128 (u128Not v.hi + 1)⟩

/-- `r256Neg` (public wrapper of `r256__neg`). -/
def r256Neg (v : R256) : R256 := r256__neg v

/-- `r256Add`: 256-bit wrapping addition; the carry out of `lo` is detected
by `r < a->lo`. -/
def r256Add (a b : R256) : R256 :=
  let r := u128 (a.lo + b.lo)
  let carry : Nat := if r < u128 a.lo then 1 else 0
  ⟨r, u128 (a.hi + b.hi + carry)⟩

/-- `r256Sub`: 256-bit wrapping subtraction; the borrow is detected by
`r > a->lo`. -/
def r256Sub (a b : R256) : R256 :=
  let r := u128sub a.lo b.lo
  let borrow : Nat := if u128 a.lo < r then 1 else 0
  ⟨r, u128sub (u128sub a.hi b.hi) borrow⟩

/-- `r256Shl`: logical left shift by `amount mod 256`. -/
def r256Shl (src : R256) (amount : Nat) : R256 :=
  let amt := amount % 256
  if 128 ≤ amt then
    ⟨0, u128 (u128 src.lo * 2^(amt - 128))⟩
  else if amt ≠ 0 then
    ⟨u128 (u128 src.lo * 2^amt), u128 (u128 src.hi * 2^amt) ||| u128 src.lo / 2^(128 - amt)⟩
  else
    ⟨src.lo, src.hi⟩

/-- `r256Shr`: logical right shift by `amount mod 256`. -/
def r256Shr (src : R256) (amount : Nat) : R256 :=
  let amt := amount % 256
  if 128 ≤ amt then
    ⟨u128 src.hi / 2^(amt - 128), 0⟩
  else if amt ≠ 0 then
    ⟨u128 src.lo / 2^amt ||| u128 (u128 src.hi * 2^(128 - amt)), u128 src.hi / 2^amt⟩
  else
    ⟨src.lo, src.hi⟩

/-- `r256Cmp`: signed three-way comparison (`hi` as signed, tie broken by
unsigned `lo`). -/
def r256Cmp (a b : R256) : Int :=
  if a.hi = b.hi then
    if a.lo = b.lo then 0
    else if b.lo < a.lo then 1
    else -1
  else if s128 b.hi < s128 a.hi then 1
  else -1

/-- `r256__ucmp`: unsigned three-way comparison. -/
def r256__ucmp (a b : R256) : Int :=
  if a.hi ≠ b.hi then
    if b.hi < a.hi then 1 else -1
  else
    if a.lo = b.lo then 0
    else if b.lo < a.lo then 1
    else -1

/-- `r256Floor`: `hi := v->hi; lo := 0`. -/
def r256Floor (v : R256) : R256 := ⟨0, v.hi⟩

/-- `r256Ceil`: `hi := v->hi + (v->lo != 0); lo := 0` (128-bit wrapping). -/
def r256Ceil (v : R256) : R256 := ⟨0, u128 (v.hi + (if v.lo ≠ 0 then 1 else 0))⟩

/-- `r256Round`: `hi := v->hi + (v->lo >= 2^127 + (v < 0)); lo := 0`. -/
def r256Round (v : R256) : R256 :=
  ⟨0, u128 (v.hi + (if 2^127 + (if s128 v.hi < 0 then 1 else 0) ≤ v.lo then 1 else 0))⟩

/-- `r256FromInt`: `lo := 0; hi := (R256_U128)v` (sign extension of the
64-bit signed argument). -/
def r256FromInt (v : Int) : R256 := ⟨0, (v % 2^128).toNat⟩

/-- `r256__umul256`: exact 128 x 128 -> 256 unsigned multiply via four 64-bit
partial products with explicit carry recombination. -/
def r256__umul256 (a b : Nat) : R256 :=
  let alo := u64 a
  let ahi := u64 (a / 2^64)
  let blo := u64 b
  let bhi := u64 (b / 2^64)
  let p0 := alo * blo
  let p1 := alo * bhi
  let p2 := ahi * blo
  let p3 := ahi * bhi
  let carry := (u64 p1 + u64 p2 + p0 / 2^64) / 2^64
  let lo := u128 (p0 + u128 ((p1 + p2) * 2^64))
  let hi := u128 (p3 + (u64 (p1 / 2^64) + u64 (p2 / 2^64)) + carry)
  ⟨lo, hi⟩

/-- `r256__umul`: unsigned Q128.128 multiply.  The low 128 bits of the
low partial product are discarded after adding their top bit as a
half-ULP rounding increment. -/
def r256__umul (a b : R256) : R256 :=
  let p0 := r256__umul256 a.lo b.lo
  let round : R256 := ⟨p0.lo / 2^127, 0⟩
  let p0 : R256 := ⟨p0.hi, 0⟩
  let p0 := r256Add p0 round
  let p1 := r256__umul256 a.hi b.lo
  let p0 := r256Add p0 p1
  let p2 := r256__umul256 a.lo b.hi
  let p0 := r256Add p0 p2
  let p3 := r256__umul256 a.hi b.hi
  let p3 : R256 := ⟨0, p3.lo⟩
  let p0 := r256Add p0 p3
  ⟨p0.lo, p0.hi⟩

/-- `r256Mul`: signed Q128.128 multiply (record sign, multiply magnitudes,
negate if needed). -/
def r256Mul (a b : R256) : R256 :=
  let ta := if r256IsNeg a then r256__neg a else a
  let tb := if r256IsNeg b then r256__neg b else b
  let sign := r256IsNeg a != r256IsNeg b
  let tc := r256__umul ta tb
  if sign then r256__neg tc else tc

/-- Count of significant binary digits, with enough fuel to be total on
128-bit values (structural helper for `r256__clz128`). -/
def bitLen : Nat → Nat → Nat
  | 0, _ => 0
  | fuel + 1, x => if x = 0 then 0 else bitLen fuel (x / 2) + 1

/-- `r256__clz128`: count of leading zeros of an unsigned 128-bit value;
128 when the argument is zero. -/
def r256__clz128 (x : Nat) : Nat := 128 - bitLen 128 (u128 x)

/-- The downward-refinement loop (`refine1` / `refine0`) of `r256__udiv256`,
on 64-bit quotient digits: while the trial digit `q` satisfies
`q * d0 > (r << 64) + n`, decrement it and add `d1` back into `r`, stopping
early when `r` would overflow.  `fuel` starts at `q + 1` and can never be
exhausted because `q` strictly decreases. -/
def r256__refine64 (d0 d1 n : Nat) : Nat → Nat → Nat → Nat × Nat
  | 0, q, r => (q, r)
  | fuel + 1, q, r =>
    if r * 2^64 + n < q * d0 then
      if r < (2^64 - d1) % 2^64 then
        r256__refine64 d0 d1 n fuel (q - 1) (u64 (r + d1))
      else (q - 1, r)
    else (q, r)

/-- One quotient-digit estimate of `r256__udiv256` (the common shape of its
`first digit` and `second digit` blocks in the C source): a trial digit from
the top two words of the running numerator (saturated to all-ones on
overflow of the trial division), then the downward refinement loop. -/
def r256__udiv256_digit (d0 d1 ntop nmid nlow : Nat) : Nat × Nat :=
  let (q, r) :=
    if ntop < d1 then
      let dividend := ntop * 2^64 + nmid
      (u64 (dividend / d1), dividend % d1)
    else
      (2^64 - 1, u64 (nmid + d1))
  r256__refine64 d0 d1 nlow (q + 1) q r

/-- The word-level subtract-product step of `r256__udiv256`:
`tmp = (nmid << 64) + nlow - (q * d0 + ((q * d1) << 64))` in `R256_U128`,
then split back into two words. -/
def r256__udiv256_sub (d0 d1 q nmid nlow : Nat) : Nat × Nat :=
  let tmp := u128sub (nmid * 2^64 + nlow) (q * d0 + u128 (q * d1 * 2^64))
  (u64 (tmp / 2^64), u64 tmp)

/-- `r256__udiv256`: divide the 256-bit numerator `nhi * 2^128 + nlo` by the
128-bit divisor `d`, yielding a 128-bit quotient and remainder (Knuth
Algorithm D with two base-2^64 digits).  C preconditions: `d != 0` and
`nhi < d`. -/
def r256__udiv256 (nlo nhi d : Nat) : Nat × Nat :=
  let shift := r256__clz128 d
  let (n3, n2, n1, n0, dn) :=
    if shift ≠ 0 then
      let tmp256 := r256Shl ⟨nlo, nhi⟩ shift
      (u64 (tmp256.hi / 2^64), u64 tmp256.hi, u64 (tmp256.lo / 2^64), u64 tmp256.lo,
       u128 (u128 d * 2^shift))
    else
      (u64 (u128 nhi / 2^64), u64 nhi, u64 (u128 nlo / 2^64), u64 nlo, u128 d)
  let d1 := u64 (dn / 2^64)
  let d0 := u64 dn
  -- first digit
  let q1 := (r256__udiv256_digit d0 d1 n3 n2 n1).1
  let (n2b, n1b) := r256__udiv256_sub d0 d1 q1 n2 n1
  -- second digit
  let q0 := (r256__udiv256_digit d0 d1 n2b n1b n0).1
  let (n1f, n0f) := r256__udiv256_sub d0 d1 q0 n1b n0
  (q1 * 2^64 + q0, (n1f * 2^64 + n0f) / 2^shift)

/-- `r256__norm`: shift `d` left until its high bit is set and shift `n` by
the same amount, producing an extra carry-out word for `n`.  Returns `none`
on overflow (when the quotient would not fit). -/
def r256__norm (n d : R256) : Option (R256 × R256 × Nat) :=
  let d1 := u128 d.hi
  let d0 := u128 d.lo
  let n1 := u128 n.hi
  let n0 := u128 n.lo
  if d1 ≠ 0 then
    let shift := r256__clz128 d1
    if shift ≠ 0 then
      some (⟨u128 (n0 * 2^shift), u128 (n1 * 2^shift) ||| n0 / 2^(128 - shift)⟩,
            ⟨u128 (d0 * 2^shift), u128 (d1 * 2^shift) ||| d0 / 2^(128 - shift)⟩,
            n1 / 2^(128 - shift))
    else
      some (⟨n0, n1⟩, ⟨d0, d1⟩, 0)
  else
    let shift := r256__clz128 d0
    if r256__clz128 n1 ≤ shift then
      none
    else if shift ≠ 0 then
      some (⟨0, u128 (n0 * 2^shift)⟩, ⟨0, u128 (d0 * 2^shift)⟩,
            u128 (n1 * 2^shift) ||| n0 / 2^(128 - shift))
    else
      some (⟨0, n0⟩, ⟨0, d0⟩, n1)

/-- The downward-refinement loop (`refine1` / `refine0`) of `r256__udiv` and
`r256__umod`, on 128-bit quotient digits.  `fuel` starts at `q + 1` and can
never be exhausted because `q` strictly decreases. -/
def r256__refine128 (d0 d1 t0lo : Nat) : Nat → Nat → Nat → Nat × Nat
  | 0, q, t0hi => (q, t0hi)
  | fuel + 1, q, t0hi =>
    let t1 := r256__umul256 q d0
    if 0 < r256__ucmp t1 ⟨t0lo, t0hi⟩ then
      if t0hi < (2^128 - d1) % 2^128 then
        r256__refine128 d0 d1 t0lo fuel (q - 1) (u128 (t0hi + d1))
      else (q - 1, t0hi)
    else (q, t0hi)

/-- `r256__udiv`: unsigned Q128.128 division.  The dividend is scaled by
2^128 (a zero limb is appended below the normalised dividend) and two 128-bit
quotient digits are produced.  On overflow the quotient is `R256_max`. -/
def r256__udiv (dividend divisor : R256) : R256 :=
  match r256__norm ⟨dividend.lo, dividend.hi⟩ ⟨divisor.lo, divisor.hi⟩ with
  | none => R256_max
  | some (n, d, n3) =>
    let d1 := d.hi
    let d0 := d.lo
    let n2 := n.hi
    let n1 := n.lo
    -- first digit
    let (qhi, t0hi) :=
      if n3 < d1 then r256__udiv256 n2 n3 d1
      else (2^128 - 1, u128 (n2 + d1))
    let (qhi, _) := r256__refine128 d0 d1 n1 (qhi + 1) qhi t0hi
    let t1 := r256__umul256 qhi d0
    let t2 := r256__umul256 qhi d1
    let t2s : R256 := ⟨0, t2.lo⟩
    let tmp := r256Sub ⟨n1, n2⟩ (r256Add t1 t2s)
    let n2b := tmp.hi
    let n1b := tmp.lo
    -- second digit
    let (qlo, t0hi2) :=
      if n2b < d1 then r256__udiv256 n1b n2b d1
      else (2^128 - 1, u128 (n1b + d1))
    let (qlo, _) := r256__refine128 d0 d1 0 (qlo + 1) qlo t0hi2
    ⟨qlo, qhi⟩

/-- `r256__umod`: companion of `r256__udiv` producing the single integer
quotient digit `floor(n / d)` used by `r256Mod` (all-ones on overflow). -/
def r256__umod (n d : R256) : Nat :=
  match r256__norm n d with
  | none => 2^128 - 1
  | some (nn, dn, n3) =>
    let d1 := dn.hi
    let d0 := dn.lo
    let n2 := nn.hi
    let n1 := nn.lo
    let (q, t0hi) := r256__udiv256 n2 n3 d1
    (r256__refine128 d0 d1 n1 (q + 1) q t0hi).1

/-- `r256Div`: signed Q128.128 division.  Divide-by-zero returns the
saturated extreme whose sign matches the (possibly negated) numerator. -/
def r256Div (a b : R256) : R256 :=
  let sign1 := r256IsNeg a
  let tn := if sign1 then r256__neg a else a
  if b.lo = 0 ∧ b.hi = 0 then
    if sign1 then R256_min else R256_max
  else
    let td := if r256IsNeg b then r256__neg b else b
    let sign := sign1 != r256IsNeg b
    let tq := r256__udiv tn td
    if sign then r256__neg tq else tq

/-- `r256Mod`: `a - trunc(a / b) * b`.  Divide-by-zero behaves as in
`r256Div`. -/
def r256Mod (a b : R256) : R256 :=
  let sign1 := r256IsNeg a
  let tn := if sign1 then r256__neg a else a
  if b.lo = 0 ∧ b.hi = 0 then
    if sign1 then R256_min else R256_max
  else
    let td := if r256IsNeg b then r256__neg b else b
    let sign := sign1 != r256IsNeg b
    let q := r256__umod tn td
    let qhi := if sign then u128 (u128Not q + 1) else q
    let tq : R256 := ⟨0, qhi⟩
    r256Sub a (r256Mul tq b)

/-- The Newton iteration of `r256Sqrt`: `newEst = (est + x / est) / 2`,
up to 7 iterations, stopping early when the estimate stops changing. -/
def r256__sqrtLoop (x : R256) : Nat → R256 → R256
  | 0, est => est
  | fuel + 1, est =>
    let newEst := r256Shr (r256Add (r256__udiv x est) est) 1
    if newEst.lo = est.lo ∧ newEst.hi = est.hi then est
    else r256__sqrtLoop x fuel newEst

/-- `r256Sqrt`: `min` for negative input, `0` for zero, otherwise
Newton-Raphson from an initial estimate obtained by halving the exponent. -/
def r256Sqrt (v : R256) : R256 :=
  if s128 v.hi < 0 then R256_min
  else
    let x : R256 := ⟨v.lo, v.hi⟩
    if x.hi ≠ 0 then
      let shift := (127 - r256__clz128 x.hi) / 2
      r256__sqrtLoop x 7 (r256Shr x shift)
    else if x.lo ≠ 0 then
      let shift := (1 + r256__clz128 x.lo) / 2
      r256__sqrtLoop x 7 (r256Shl x shift)
    else R256_zero

/-- The constant 1.5 used by `r256Rsqrt` (hi = 1, lo = 2^127). -/
def r256__threeHalves : R256 := ⟨2^127, 1⟩

/-- The Newton iteration of `r256Rsqrt`:
`newEst = est * (1.5 - (v/2) * est * est)`, up to 7 iterations, stopping
early when the estimate stops changing. -/
def r256__rsqrtLoop (x : R256) : Nat → R256 → R256
  | 0, est => est
  | fuel + 1, est =>
    let e1 := r256__umul est est
    let e2 := r256__umul e1 x
    let e3 := r256Sub r256__threeHalves e2
    let newEst := r256__umul est e3
    if newEst.lo = est.lo ∧ newEst.hi = est.hi then est
    else r256__rsqrtLoop x fuel newEst

/-- `r256Rsqrt`: `min` for negative input, `0` for zero, otherwise the
division-free Newton-Raphson iteration on `1/sqrt(v)`. -/
def r256Rsqrt (v : R256) : R256 :=
  if s128 v.hi < 0 then R256_min
  else
    let x : R256 := ⟨v.lo, v.hi⟩
    if x.hi ≠ 0 then
      let shift := (128 + r256__clz128 x.hi) / 2
      let est : R256 := ⟨u128 (2^shift), 0⟩
      r256__rsqrtLoop (r256Shr x 1) 7 est
    else if x.lo ≠ 0 then
      let shift := r256__clz128 x.lo / 2
      let est : R256 := ⟨0, u128 (2^shift)⟩
      r256__rsqrtLoop (r256Shr x 1) 7 est
    else R256_zero

/-! ## String conversion -/

/-- `R256ToStringSign`: sign-character policy for positive values. -/
inductive R256ToStringSign where
  | dfl
  | space
  | plus
deriving DecidableEq, Repr

/-- `R256ToStringFormat`: the formatting options record. -/
structure R256ToStringFormat where
  sign : R256ToStringSign
  width : Int
  precision : Int
  zeroPad : Bool
  decimal : Bool
  leftAlign : Bool
deriving Repr

/-- `R256__defaultFormat`: the options corresponding to `"%f"` (except
precision defaults to -1). -/
def R256__defaultFormat : R256ToStringFormat :=
  ⟨.dfl, 0, -1, false, false, false⟩

/-- The backward carry propagation of the round-up path in `r256__format`:
increment the last fractional digit; digits that pass `'9'` reset to `'0'`
and the carry moves left, escaping into the whole part if all digits wrap.
The input and output lists are reversed (last-emitted digit first). -/
def r256__fracCarry : List Char → List Char × Nat
  | [] => ([], 1)
  | c :: rest =>
    let d := Char.ofNat (c.toNat + 1)
    if d ≤ '9' then (d :: rest, 0)
    else
      let lk := r256__fracCarry rest
      ('0' :: lk.1, lk.2)

/-- The fractional-digit emission loop of `r256__format`: repeatedly multiply
`tmp.lo` by 10; each product's upper 128 bits is the next digit and its lower
128 bits the next `tmp.lo`.  `fuel` is the number of digit slots left before
`precision` digits have been emitted; when it reaches zero and the remaining
`tmp.lo` has its top bit set, a round-up carry is propagated backward.
Returns the emitted digits and the carry into the whole part. -/
def r256__fracLoop (fullPrecision precNZ : Bool) : Nat → Nat → List Char → List Char × Nat
  | 0, lo, acc =>
    if lo ≠ 0 ∨ (fullPrecision = true ∧ precNZ = true) then
      if 2^127 ≤ lo then
        let ck := r256__fracCarry acc.reverse
        (ck.1.reverse, ck.2)
      else (acc, 0)
    else (acc, 0)
  | fuel + 1, lo, acc =>
    if lo ≠ 0 ∨ (fullPrecision = true ∧ precNZ = true) then
      let p := r256__umul256 lo 10
      r256__fracLoop fullPrecision precNZ fuel p.lo (acc ++ [Char.ofNat (p.hi + 48)])
    else (acc, 0)

/-- The whole-part emission loop of `r256__format` (a do-while, so zero
yields one `'0'`), least-significant digit first.  `fuel` bounds the digit
count; it is always called with 40, enough for any 128-bit whole part. -/
def r256__wholeDigits : Nat → Nat → List Char
  | 0, _ => []
  | fuel + 1, whole =>
    let digit := Char.ofNat (whole % 10 + 48)
    if whole / 10 = 0 then [digit]
    else digit :: r256__wholeDigits fuel (whole / 10)

/-- Destination-buffer state for the `R256__WRITE` macro: the bytes stored
so far and the (unbounded) cursor offset `dstp - dst`. -/
structure R256WB where
  out : List Char
  pos : Nat
deriving Repr

/-- `R256__WRITE(c)`: store `c` only if the cursor is still inside the
buffer, but always advance the cursor. -/
def r256__write (cap : Nat) (st : R256WB) (c : Char) : R256WB :=
  if st.pos < cap then ⟨st.out ++ [c], st.pos + 1⟩ else ⟨st.out, st.pos + 1⟩

/-- Iterated `R256__WRITE`. -/
def r256__writeAll (cap : Nat) : R256WB → List Char → R256WB
  | st, [] => st
  | st, c :: cs => r256__writeAll cap (r256__write cap st c) cs

/-- The sequence of characters fed to `R256__WRITE` by `r256__format`
(the stores have no feedback into the digit computation, so the emitted
bytes are independent of the destination buffer).  The fractional part is
computed first so that a round-up carry can flow into the whole part. -/
def r256__formatChars (v : R256) (format : R256ToStringFormat) : List Char :=
  let sign := r256IsNeg v
  let tmp := if sign then r256__neg v else v
  let width : Int := if format.width < 0 then 0 else format.width
  let pcfg :=
    if format.precision < 0 then (false, (39 : Nat), (0 : Nat))
    else if 215 < format.precision then (true, 215, (format.precision - 215).toNat)
    else (true, format.precision.toNat, 0)
  let fullPrecision := pcfg.1
  let precision := pcfg.2.1
  let trail := pcfg.2.2
  let fc :=
    if tmp.lo ≠ 0 ∨ format.decimal = true then
      r256__fracLoop fullPrecision (decide (precision ≠ 0)) precision tmp.lo []
    else ([], 0)
  let fracDigits := fc.1
  let carry := fc.2
  let sep : List Char :=
    if (tmp.lo ≠ 0 ∨ format.decimal = true) ∧ (format.decimal = true ∨ precision ≠ 0) then
      [R256_decimal]
    else []
  let whole := u128 (tmp.hi + carry)
  let wholeLE := r256__wholeDigits 40 whole
  let bufLen := fracDigits.length + sep.length + wholeLE.length
  let padCnt0 : Int := width - bufLen - 1
  -- left padding (sign first when zero-padding)
  let pr1 :=
    if format.leftAlign = false then
      let padChar := if format.zeroPad then '0' else ' '
      let sc :=
        if format.zeroPad then
          if sign then ((['-'] : List Char), padCnt0)
          else if format.sign = .plus then (['+'], padCnt0)
          else if format.sign = .space then ([' '], padCnt0)
          else ([], padCnt0 + 1)
        else ([], padCnt0)
      (sc.1 ++ List.replicate sc.2.toNat padChar, if 0 < sc.2 then (0 : Int) else sc.2)
    else ([], padCnt0)
  let pre1 := pr1.1
  let padCnt1 := pr1.2
  -- sign (when not already written with zero padding)
  let pr2 :=
    if format.leftAlign = true ∨ format.zeroPad = false then
      if sign then ((['-'] : List Char), padCnt1)
      else if format.sign = .plus then (['+'], padCnt1)
      else if format.sign = .space then ([' '], padCnt1)
      else ([], padCnt1 + 1)
    else ([], padCnt1)
  let pre2 := pr2.1
  let padCnt2 := pr2.2
  -- the buffer is [fracDigits, sep, wholeLE]; the whole part is written from
  -- the top of the buffer down to the separator, then the fractional digits
  -- forward
  let body := (sep ++ wholeLE).reverse ++ fracDigits
  -- right padding
  let post :=
    if format.leftAlign = true then
      let padChar := if format.zeroPad then '0' else ' '
      List.replicate padCnt2.toNat padChar
    else []
  pre1 ++ pre2 ++ body ++ post ++ List.replicate trail '0'

/-- `r256__format`: convert `v` to a decimal string under `format`.
Returns the bytes stored in the destination buffer (including the final
NUL placed at `min(cursor, dstSize - 1)`) and the return value (the number
of bytes that would have been written, NUL excluded). -/
def r256__format (dstSize : Nat) (v : R256) (format : R256ToStringFormat) : List Char × Nat :=
  let cap := dstSize - 1
  let st := r256__writeAll cap ⟨[], 0⟩ (r256__formatChars v format)
  (st.out ++ [Char.ofNat 0], st.pos)

/-- `r256ToStringOpt`. -/
def r256ToStringOpt (dstSize : Nat) (v : R256) (opt : R256ToStringFormat) : List Char × Nat :=
  r256__format dstSize v opt

/-- `r256ToString`: default formatting. -/
def r256ToString (dstSize : Nat) (v : R256) : List Char × Nat :=
  r256__format dstSize v R256__defaultFormat

/-- Digit classification of the whole-part loop of `r256FromString`:
`0-9` always, `a-f` / `A-F` only in base 16. -/
def r256__digitVal (base : Nat) (c : Char) : Option Nat :=
  if '0' ≤ c ∧ c ≤ '9' then some (c.toNat - '0'.toNat)
  else if base = 16 ∧ 'a' ≤ c ∧ c ≤ 'f' then some (c.toNat - 'a'.toNat + 10)
  else if base = 16 ∧ 'A' ≤ c ∧ c ≤ 'F' then some (c.toNat - 'A'.toNat + 10)
  else none

/-- Whole-part accumulation loop of `r256FromString`:
`hi = hi * base + digit` in `R256_U128`. -/
def r256__wholeLoop (base : Nat) : Nat → List Char → Nat × List Char
  | hi, [] => (hi, [])
  | hi, c :: cs =>
    match r256__digitVal base c with
    | some d => r256__wholeLoop base (u128 (hi * base + d)) cs
    | none => (hi, c :: cs)

/-- Digit value as decoded inside the backward fractional loop of
`r256FromString` (no base check there: the forward scan has already
restricted the characters). -/
def r256__fracDigitVal (c : Char) : Nat :=
  if '0' ≤ c ∧ c ≤ '9' then c.toNat - '0'.toNat
  else if 'a' ≤ c ∧ c ≤ 'f' then c.toNat - 'a'.toNat + 10
  else c.toNat - 'A'.toNat + 10

/-- The backward loop of `r256FromString` over the fractional digits:
`lo = r256__udiv256(lo, digit, base, &unused)` from the last digit back to
the first (this is `foldr` over the digits in text order). -/
def r256__fracAccum (base : Nat) (digits : List Char) : Nat :=
  digits.foldr (fun c lo => (r256__udiv256 lo (r256__fracDigitVal c) base).1) 0

/-- Whitespace characters skipped by `r256FromString`. -/
def r256__isSpace (c : Char) : Bool :=
  c == ' ' || c == '\t' || c == '\r' || c == '\n' || c == Char.ofNat 11

/-- `r256FromString`: parse `[whitespace][sign][0x|0X]digits[.digits]`.
Returns the parsed value and the unconsumed suffix (the end pointer). -/
def r256FromString (s : List Char) : R256 × List Char :=
  let s1 := s.dropWhile r256__isSpace
  let (sign, s2) :=
    match s1 with
    | '-' :: rest => (true, rest)
    | '+' :: rest => (false, rest)
    | _ => (false, s1)
  let (base, s3) :=
    match s2 with
    | '0' :: 'x' :: rest => ((16 : Nat), rest)
    | '0' :: 'X' :: rest => (16, rest)
    | _ => (10, s2)
  let (hi, s4) := r256__wholeLoop base 0 s3
  let (lo, s5) :=
    match s4 with
    | c :: rest =>
      if c = R256_decimal then
        (r256__fracAccum base (rest.takeWhile (fun c2 => (r256__digitVal base c2).isSome)),
         rest.dropWhile (fun c2 => (r256__digitVal base c2).isSome))
      else (0, c :: rest)
    | [] => (0, [])
  let dst : R256 := ⟨lo, hi⟩
  ((if sign then r256__neg dst else dst), s5)

/-- The magnitude of a value read as a raw 256-bit two's-complement
integer. -/
def R256.absN (v : R256) : Nat :=
  if 2^127 ≤ v.hi then 2^256 - v.toN else v.toN

/-! ## Basic lemmas -/

theorem u128_eq_of_lt {x : Nat} (h : x < 2^128) : u128 x = x := Nat.mod_eq_of_lt h

theorem u128_lt (x : Nat) : u128 x < 2^128 := Nat.mod_lt _ (by norm_num)

theorem r256__neg_wf (v : R256) : (r256__neg v).wf := by
  unfold r256__neg R256.wf u128 u128Not
  split <;> dsimp only <;> constructor <;> omega

theorem r256Add_wf (a b : R256) : (r256Add a b).wf :=
  ⟨u128_lt _, u128_lt _⟩

theorem r256__umul256_wf (a b : Nat) : (r256__umul256 a b).wf :=
  ⟨u128_lt _, u128_lt _⟩

/-- `toN` determines a well-formed value. -/
theorem R256.toN_inj {a b : R256} (ha : a.wf) (hb : b.wf) (h : a.toN = b.toN) : a = b := by
  obtain ⟨a0, a1⟩ := a
  obtain ⟨b0, b1⟩ := b
  obtain ⟨h1, h2⟩ := ha
  obtain ⟨h3, h4⟩ := hb
  unfold R256.toN at h
  dsimp only at h h1 h2 h3 h4
  simp only [R256.mk.injEq]
  omega

/-- `r256Add` computes addition modulo 2^256 on well-formed values. -/
theorem r256Add_toN {a b : R256} (ha : a.wf) (hb : b.wf) :
    (r256Add a b).toN = (a.toN + b.toN) % 2^256 := by
  obtain ⟨h1, h2⟩ := ha
  obtain ⟨h3, h4⟩ := hb
  unfold r256Add R256.toN u128
  dsimp only
  split <;> omega

/-- `r256__neg` computes negation modulo 2^256 on well-formed values. -/
theorem r256__neg_toN {v : R256} (h : v.wf) :
    (r256__neg v).toN = (2^256 - v.toN) % 2^256 := by
  obtain ⟨h1, h2⟩ := h
  simp only [r256__neg, R256.toN, u128, u128Not]
  split <;> dsimp only <;> omega

/-- Exchanging the second and third operands of a double `r256Add` (used to
commute the partial-product accumulation of `r256__umul`). -/
theorem r256Add_right_comm {a b c : R256} (ha : a.wf) (hb : b.wf) (hc : c.wf) :
    r256Add (r256Add a b) c = r256Add (r256Add a c) b := by
  apply R256.toN_inj (r256Add_wf _ _) (r256Add_wf _ _)
  rw [r256Add_toN (r256Add_wf a b) hc, r256Add_toN (r256Add_wf a c) hb,
    r256Add_toN ha hb, r256Add_toN ha hc]
  omega

/-- `r256__umul256` is commutative. -/
theorem r256__umul256_comm (a b : Nat) : r256__umul256 a b = r256__umul256 b a := by
  unfold r256__umul256 u64 u128
  simp only [R256.mk.injEq]
  generalize a % 2^64 = w
  generalize a / 2^64 % 2^64 = x
  generalize b % 2^64 = y
  generalize b / 2^64 % 2^64 = z
  rw [Nat.mul_comm y w, Nat.mul_comm y x, Nat.mul_comm z w, Nat.mul_comm z x]
  generalize w * y = p0
  generalize w * z = p1
  generalize x * y = p2
  generalize x * z = p3
  constructor <;> omega

/-- `r256__umul` is commutative: under the operand swap the two cross
partial products `p1` and `p2` exchange roles, and the accumulation is
addition modulo 2^256. -/
theorem r256__umul_comm (a b : R256) : r256__umul a b = r256__umul b a := by
  unfold r256__umul
  simp only
  rw [r256__umul256_comm a.lo b.lo, r256__umul256_comm a.hi b.hi,
    r256__umul256_comm a.hi b.lo, r256__umul256_comm a.lo b.hi]
  congr 1 <;>
    (congr 2
     exact r256Add_right_comm (r256Add_wf _ _) (r256__umul256_wf _ _) (r256__umul256_wf _ _))

/-! ## Claim theorems -/

/-- C10: `r256Mul` is commutative bit-for-bit.  Under the operand swap the
sign is the symmetric XOR of the operand signs, the half-ULP rounding
increment comes from the symmetric low partial product `a.lo * b.lo`, the
two cross partial products exchange roles inside the wrapping 256-bit
accumulation, and the final negation is applied symmetrically. -/
theorem claim10_mul_comm (a b : R256) : r256Mul a b = r256Mul b a := by
  unfold r256Mul
  simp only
  rw [r256__umul_comm]
  cases ha : r256IsNeg a <;> cases hb : r256IsNeg b <;> rfl

/-- C2: division and modulo by zero saturate: both `r256Div` and `r256Mod`
with zero divisor return `R256_min` when the numerator is negative and
`R256_max` otherwise (a numerator of zero included). -/
theorem claim2_div_mod_by_zero_saturate (a : R256) :
    r256Div a R256_zero = (if r256IsNeg a = true then R256_min else R256_max) ∧
    r256Mod a R256_zero = (if r256IsNeg a = true then R256_min else R256_max) := by
  constructor
  · unfold r256Div
    simp [R256_zero]
  · unfold r256Mod
    simp [R256_zero]

/-- C4 counterexample: at `v = R256_max` the ceiling wraps around to
`R256_min`, and the signed comparison says `max > ceil(max)` (`r256Cmp`
returns 1), refuting `v ≤ ceil(v)` as stated. -/
theorem claim4_ceil_overflow_cex :
    r256Ceil R256_max = R256_min ∧ r256Cmp R256_max (r256Ceil R256_max) = 1 := by
  constructor <;> decide

/-- C4 (amended): for every well-formed v, `floor(v) ≤ v` holds and
`ceil(v) - floor(v)` (with the wrapping `r256Sub`) is zero or one; and
`v ≤ ceil(v)` holds provided the ceiling does not overflow, i.e. except
when `v.hi = 2^127 - 1` and `v.lo ≠ 0`. -/
theorem claim4_floor_le_ceil_amended (v : R256) (h : v.wf) :
    r256Cmp (r256Floor v) v ≤ 0 ∧
    (¬(v.hi = 2^127 - 1 ∧ v.lo ≠ 0) → r256Cmp v (r256Ceil v) ≤ 0) ∧
    (r256Sub (r256Ceil v) (r256Floor v) = R256_zero ∨
     r256Sub (r256Ceil v) (r256Floor v) = R256_one) := by
  obtain ⟨h1, h2⟩ := h
  have hstep : ∀ b : Nat, b ≤ 1 → r256Sub ⟨0, u128 (v.hi + b)⟩ ⟨0, v.hi⟩ = ⟨0, b⟩ := by
    intro b hb
    simp only [r256Sub, u128sub, u128]
    dsimp only
    simp only [R256.mk.injEq]
    refine ⟨by omega, ?_⟩
    split_ifs <;> omega
  refine ⟨?_, ?_, ?_⟩
  · simp only [r256Cmp, r256Floor, s128, u128]
    split_ifs <;> omega
  · intro hno
    by_cases hl : v.lo = 0
    · have hc : r256Ceil v = ⟨0, v.hi⟩ := by
        have hz : (if v.lo ≠ 0 then 1 else 0) = 0 := by simp [hl]
        simp only [r256Ceil, hz, u128, Nat.add_zero, Nat.mod_eq_of_lt h2]
      rw [hc]
      simp only [r256Cmp, s128, u128]
      split_ifs <;> omega
    · have hne : v.hi ≠ 2^127 - 1 := fun hh => hno ⟨hh, hl⟩
      have hc : r256Ceil v = ⟨0, (v.hi + 1) % 2^128⟩ := by
        simp [r256Ceil, hl, u128]
      rw [hc]
      simp only [r256Cmp, s128, u128]
      split_ifs <;> omega
  · by_cases hl : v.lo = 0
    · left
      have hc : r256Ceil v = ⟨0, u128 (v.hi + 0)⟩ := by simp [r256Ceil, hl]
      rw [show r256Floor v = (⟨0, v.hi⟩ : R256) from rfl, hc, hstep 0 (by omega)]
      rfl
    · right
      have hc : r256Ceil v = ⟨0, u128 (v.hi + 1)⟩ := by simp [r256Ceil, hl]
      rw [show r256Floor v = (⟨0, v.hi⟩ : R256) from rfl, hc, hstep 1 (by omega)]
      rfl

theorem claim4_floor_le_ceil_amended_witness :
    (⟨5, 3⟩ : R256).wf ∧
    (r256Cmp (r256Floor ⟨5, 3⟩) ⟨5, 3⟩ ≤ 0 ∧
     (¬((⟨5, 3⟩ : R256).hi = 2^127 - 1 ∧ (⟨5, 3⟩ : R256).lo ≠ 0) →
       r256Cmp ⟨5, 3⟩ (r256Ceil ⟨5, 3⟩) ≤ 0) ∧
     (r256Sub (r256Ceil ⟨5, 3⟩) (r256Floor ⟨5, 3⟩) = R256_zero ∨
      r256Sub (r256Ceil ⟨5, 3⟩) (r256Floor ⟨5, 3⟩) = R256_one)) :=
  ⟨by decide, claim4_floor_le_ceil_amended ⟨5, 3⟩ (by decide)⟩

/-- C5: rounding goes to nearest with halfway values away from zero: for
every well-formed v, `r256Round v` equals `r256Floor` of `v + 0.5` when v is
non-negative and `r256Ceil` of `v - 0.5` when v is negative, where 0.5 is
the value with lo = 2^127, hi = 0; and concretely round(2.5) = 3,
round(-2.5) = -3, round(2.3) = 2, round(-2.3) = -2 (operands produced by
`r256FromString`, results by `r256FromInt`). -/
theorem claim5_round_half_away :
    (∀ v : R256, v.wf →
      r256Round v =
        (if r256IsNeg v = true then r256Ceil (r256Sub v ⟨2^127, 0⟩)
         else r256Floor (r256Add v ⟨2^127, 0⟩))) ∧
    r256Round (r256FromString ['2', '.', '5']).1 = r256FromInt 3 ∧
    r256Round (r256FromString ['-', '2', '.', '5']).1 = r256FromInt (-3) ∧
    r256Round (r256FromString ['2', '.', '3']).1 = r256FromInt 2 ∧
    r256Round (r256FromString ['-', '2', '.', '3']).1 = r256FromInt (-2) := by
  refine ⟨?_, by decide, by decide, by decide, by decide⟩
  intro v hv
  obtain ⟨h1, h2⟩ := hv
  simp only [r256Round, r256IsNeg, r256Ceil, r256Floor, r256Add, r256Sub, s128,
    u128sub, u128, decide_eq_true_eq]
  dsimp only
  split_ifs <;> simp only [R256.mk.injEq, true_and] <;> omega

theorem claim5_round_half_away_witness :
    (⟨2^127, 2⟩ : R256).wf ∧
    r256Round ⟨2^127, 2⟩ =
      (if r256IsNeg ⟨2^127, 2⟩ = true then r256Ceil (r256Sub ⟨2^127, 2⟩ ⟨2^127, 0⟩)
       else r256Floor (r256Add ⟨2^127, 2⟩ ⟨2^127, 0⟩)) :=
  ⟨by decide, claim5_round_half_away.1 ⟨2^127, 2⟩ (by decide)⟩

/-- C6 counterexample: `r256Rsqrt` applied to zero returns zero (the
`x.hi = 0, x.lo = 0` branch), not the sentinel `R256_min` the claim
demands. -/
theorem claim6_rsqrt_zero_cex :
    r256Rsqrt R256_zero = R256_zero ∧ R256_zero ≠ R256_min := by
  constructor <;> decide

/-- C6 (amended): `r256Rsqrt` returns the sentinel `R256_min` for every
well-formed strictly negative input, while for zero it returns zero. -/
theorem claim6_rsqrt_nonpos_amended :
    (∀ v : R256, v.wf → r256IsNeg v = true → r256Rsqrt v = R256_min) ∧
    r256Rsqrt R256_zero = R256_zero := by
  constructor
  · intro v hv hneg
    obtain ⟨h1, h2⟩ := hv
    simp only [r256IsNeg, u128, decide_eq_true_eq, Nat.mod_eq_of_lt h2] at hneg
    have hs : s128 v.hi < 0 := by
      simp only [s128, u128, Nat.mod_eq_of_lt h2]
      split <;> omega
    unfold r256Rsqrt
    rw [if_pos hs]
  · decide

theorem claim6_rsqrt_nonpos_amended_witness :
    R256_min.wf ∧ r256IsNeg R256_min = true ∧ r256Rsqrt R256_min = R256_min :=
  ⟨by decide, by decide, claim6_rsqrt_nonpos_amended.1 R256_min (by decide) (by decide)⟩

/-! ## Leading-zero count and the division overflow path -/

theorem u128_idem (x : Nat) : u128 (u128 x) = u128 x := by
  unfold u128
  omega

theorem bitLen_le_iff {fuel x k : Nat} (hx : x < 2^fuel) (hk : k ≤ fuel) :
    bitLen fuel x ≤ k ↔ x < 2^k := by
  induction fuel generalizing x k with
  | zero =>
    have hk0 : k = 0 := Nat.le_zero.mp hk
    subst hk0
    simp only [bitLen, pow_zero]
    omega
  | succ n ih =>
    by_cases hx0 : x = 0
    · subst hx0
      simp only [bitLen, if_pos rfl]
      constructor
      · intro _
        exact Nat.pos_pow_of_pos k (by norm_num)
      · intro _
        exact Nat.zero_le k
    · simp only [bitLen, if_neg hx0]
      cases k with
      | zero =>
        simp only [pow_zero]
        constructor
        · intro h
          omega
        · intro h
          omega
      | succ k2 =>
        have h2 : x / 2 < 2^n := by
          rw [pow_succ] at hx
          omega
        have hk2 : k2 ≤ n := by omega
        rw [Nat.add_le_add_iff_right, ih h2 hk2, pow_succ]
        omega

theorem bitLen_le_fuel {fuel x : Nat} (hx : x < 2^fuel) : bitLen fuel x ≤ fuel :=
  (bitLen_le_iff hx (Nat.le_refl _)).mpr hx

theorem bitLen_lt_self {fuel x : Nat} (hx : x < 2^fuel) : x < 2^(bitLen fuel x) :=
  (bitLen_le_iff hx (bitLen_le_fuel hx)).mp (Nat.le_refl _)

/-- `r256__clz128` is antitone on nonzero 128-bit values. -/
theorem r256__clz128_antitone {x y : Nat} (hxy : x ≤ y) (hy : y < 2^128) :
    r256__clz128 y ≤ r256__clz128 x := by
  have hx : x < 2^128 := Nat.lt_of_le_of_lt hxy hy
  unfold r256__clz128
  rw [u128_eq_of_lt hx, u128_eq_of_lt hy]
  have hbx : bitLen 128 x ≤ bitLen 128 y := by
    rw [bitLen_le_iff hx (bitLen_le_fuel hy)]
    exact Nat.lt_of_le_of_lt hxy (bitLen_lt_self hy)
  omega

/-- When the divisor fits in the low limb and its top limb would have to
carry into the quotient (`d.lo ≤ n.hi`), `r256__norm` reports overflow. -/
theorem r256__norm_overflow {n d : R256} (hd1 : d.hi = 0)
    (hwd : d.lo < 2^128) (hwn : n.hi < 2^128) (hge : d.lo ≤ n.hi) :
    r256__norm n d = none := by
  unfold r256__norm
  rw [hd1]
  simp only [u128, Nat.zero_mod]
  rw [if_neg (by omega)]
  rw [if_pos]
  have h1 : n.hi % 2^128 = n.hi := Nat.mod_eq_of_lt hwn
  have h2 : d.lo % 2^128 = d.lo := Nat.mod_eq_of_lt hwd
  rw [show r256__clz128 (n.hi % 2^128) = r256__clz128 n.hi from by rw [h1],
    show r256__clz128 (d.lo % 2^128) = r256__clz128 d.lo from by rw [h2]]
  exact r256__clz128_antitone hge hwn

/-- On normalisation overflow the unsigned quotient saturates to
`R256_max`. -/
theorem r256__udiv_overflow {dividend divisor : R256}
    (h : r256__norm ⟨dividend.lo, dividend.hi⟩ ⟨divisor.lo, divisor.hi⟩ = none) :
    r256__udiv dividend divisor = R256_max := by
  unfold r256__udiv
  rw [h]

/-- The magnitude step at the top of `r256Div`/`r256Mod`: conditional
negation computes `absN` and preserves well-formedness. -/
theorem r256__abs_toN {v : R256} (h : v.wf) :
    (if r256IsNeg v then r256__neg v else v).toN = v.absN ∧
    (if r256IsNeg v then r256__neg v else v).wf := by
  obtain ⟨h1, h2⟩ := h
  by_cases hn : r256IsNeg v = true
  · have hge : 2^127 ≤ v.hi := by
      simp only [r256IsNeg, u128, decide_eq_true_eq] at hn
      omega
    rw [hn]
    simp only [if_true]
    refine ⟨?_, r256__neg_wf v⟩
    rw [r256__neg_toN ⟨h1, h2⟩]
    unfold R256.absN R256.toN
    rw [if_pos hge]
    have : v.hi * 2^128 + v.lo ≥ 2^127 * 2^128 := by
      calc 2^127 * 2^128 ≤ v.hi * 2^128 := Nat.mul_le_mul_right _ hge
      _ ≤ v.hi * 2^128 + v.lo := Nat.le_add_right _ _
    omega
  · have hlt : v.hi < 2^127 := by
      simp only [r256IsNeg, u128, Nat.mod_eq_of_lt h2, decide_eq_true_eq] at hn
      omega
    simp only [hn, Bool.false_eq_true, if_false]
    refine ⟨?_, h1, h2⟩
    unfold R256.absN
    rw [if_neg (by omega)]

theorem R256.absN_lt {v : R256} (h : v.wf) : v.absN < 2^256 := by
  obtain ⟨h1, h2⟩ := h
  unfold R256.absN R256.toN
  split <;> omega

theorem R256.absN_ne_zero {v : R256} (h : v.wf) (hz : ¬(v.lo = 0 ∧ v.hi = 0)) :
    v.absN ≠ 0 := by
  obtain ⟨h1, h2⟩ := h
  unfold R256.absN R256.toN
  split <;> omega

/-- C9 counterexample: `a` is 2^126 and `b` is one half, so the exact
quotient is 2^127 (out of signed range, operand signs agree), but `r256Div`
returns the wrapped pattern `R256_min` rather than the saturated `R256_max`
demanded by the claim (and not its negation either). -/
theorem claim9_div_insufficient_saturation_cex :
    r256Div ⟨0, 2^126⟩ ⟨2^127, 0⟩ = R256_min ∧
    R256_min ≠ R256_max ∧ R256_min ≠ r256__neg R256_max := by
  refine ⟨by decide, by decide, by decide⟩

/-- C9 (amended): the overflow test `r256Div` relies on is `r256__norm`'s
leading-zero-count comparison, a coarser criterion than representability.
It guarantees saturation whenever the exact quotient magnitude reaches
2^128 (i.e. `|a| ≥ 2^128 * |b|` as raw 256-bit magnitudes): then `r256Div`
returns `R256_max` when the operand signs agree and the two's-complement
negation of `R256_max` when they differ.  For quotient magnitudes in
`[2^127, 2^128)` — already unrepresentable in signed Q128.128 — the test
decides by bit lengths and either outcome occurs: the quotient
2^126/(1/2) = 2^127 wraps modulo 2^256 to `R256_min`, while the quotient
8/(15*2^-128) = 8*2^128/15 saturates to `R256_max`. -/
theorem claim9_div_overflow_saturates_amended :
    (∀ a b : R256, a.wf → b.wf → ¬(b.lo = 0 ∧ b.hi = 0) →
      2^128 * b.absN ≤ a.absN →
      r256Div a b =
        (if (r256IsNeg a != r256IsNeg b) = true then r256__neg R256_max else R256_max)) ∧
    r256Div ⟨0, 2^126⟩ ⟨2^127, 0⟩ = R256_min ∧
    r256Div ⟨0, 8⟩ ⟨15, 0⟩ = R256_max := by
  refine ⟨?_, by decide, by decide⟩
  intro a b ha hb hbz hq
  obtain ⟨htn, hwtn⟩ := r256__abs_toN ha
  obtain ⟨htd, hwtd⟩ := r256__abs_toN hb
  have hblt : b.absN < 2^128 := by
    have := R256.absN_lt ha
    omega
  have hbne := R256.absN_ne_zero hb hbz
  have hdhi : (if r256IsNeg b then r256__neg b else b).hi = 0 := by
    have h1 := hwtd.1
    unfold R256.toN at htd
    omega
  have hdlo : (if r256IsNeg b then r256__neg b else b).lo = b.absN := by
    unfold R256.toN at htd
    omega
  have hnhi : b.absN ≤ (if r256IsNeg a then r256__neg a else a).hi := by
    have h1 := hwtn.1
    unfold R256.toN at htn
    omega
  have hnorm : r256__norm
      ⟨(if r256IsNeg a then r256__neg a else a).lo, (if r256IsNeg a then r256__neg a else a).hi⟩
      ⟨(if r256IsNeg b then r256__neg b else b).lo, (if r256IsNeg b then r256__neg b else b).hi⟩
      = none := by
    apply r256__norm_overflow hdhi
    · rw [hdlo]
      exact hblt
    · exact hwtn.2
    · rw [hdlo]
      exact hnhi
  have hdiv := r256__udiv_overflow hnorm
  unfold r256Div
  simp only
  rw [if_neg hbz, hdiv]

/-! ## The base-10 specialisation of `r256__udiv256` and the fractional
parse loop -/

theorem r256__refine64_d0_zero (d1 n q r : Nat) :
    r256__refine64 0 d1 n (q + 1) q r = (q, r) := by
  simp [r256__refine64]

theorem r256__udiv256_digit_zero (d1 ntop nmid nlow : Nat) (h : ntop < d1) :
    r256__udiv256_digit 0 d1 ntop nmid nlow =
      (u64 ((ntop * 2^64 + nmid) / d1), (ntop * 2^64 + nmid) % d1) := by
  unfold r256__udiv256_digit
  rw [if_pos h]
  dsimp only
  rw [r256__refine64_d0_zero]

theorem r256Shl_ten_aux (lo digit : Nat) (hlo : lo < 2^128) (hd : digit < 10) :
    r256Shl ⟨lo, digit⟩ 124 = ⟨lo * 2^124 % 2^128, 2^124 * digit + lo / 16⟩ := by
  have hor : u128 (u128 digit * 2^124) ||| u128 lo / 2^(128 - 124 % 256) = 2^124 * digit + lo / 16 := by
    have h1 : u128 (u128 digit * 2^124) = 2^124 * digit := by
      unfold u128
      omega
    have h2 : u128 lo / 2^(128 - 124 % 256) = lo / 16 := by
      rw [show (128 - 124 % 256 : Nat) = 4 from rfl]
      unfold u128
      omega
    rw [h1, h2]
    exact (Nat.mul_add_lt_is_or (by omega) digit).symm
  unfold r256Shl
  rw [if_neg (by omega), if_pos (by omega)]
  rw [hor]
  simp only [R256.mk.injEq]
  refine ⟨?_, trivial⟩
  rw [show (124 % 256 : Nat) = 124 from rfl]
  unfold u128
  omega

/-- `r256__udiv256` with divisor 10 computes the exact truncated quotient:
after normalisation by `clz(10) = 124` the divisor's low word is zero, so
both refinement loops are vacuous and the two estimated digits are exact. -/
theorem r256__udiv256_ten (lo digit : Nat) (hlo : lo < 2^128) (hd : digit < 10) :
    (r256__udiv256 lo digit 10).1 = (digit * 2^128 + lo) / 10 := by
  have hclz : r256__clz128 10 = 124 := by decide
  have hd0 : u64 (u128 (u128 10 * 2^124)) = 0 := by decide
  have hd1v : u64 (u128 (u128 10 * 2^124) / 2^64) = 11529215046068469760 := by decide
  unfold r256__udiv256
  rw [hclz]
  dsimp only
  rw [if_pos (show (124:Nat) ≠ 0 by omega)]
  rw [r256Shl_ten_aux lo digit hlo hd]
  generalize hH : 2^124 * digit + lo / 16 = H
  generalize hL : lo * 2^124 % 2^128 = L
  have hHb : H < 2^128 := by omega
  have hLb : L < 2^128 := by omega
  dsimp only
  rw [hd0, hd1v]
  rw [r256__udiv256_digit_zero _ _ _ _ (show u64 (H / 2^64) < 11529215046068469760 by
    simp only [u64]; omega)]
  dsimp only
  have e1 : u64 (H / 2^64) * 2^64 + u64 H = H := by
    simp only [u64]
    omega
  rw [e1]
  have hq : u64 (H / 11529215046068469760) = H / 11529215046068469760 := by
    simp only [u64]
    omega
  rw [hq]
  have hs : r256__udiv256_sub 0 11529215046068469760 (H / 11529215046068469760) (u64 H)
      (u64 (L / 2^64)) = (H % 11529215046068469760, L / 2^64) := by
    unfold r256__udiv256_sub
    dsimp only
    simp only [u64, u128, u128sub, Prod.mk.injEq]
    constructor <;> omega
  rw [hs]
  dsimp only
  rw [r256__udiv256_digit_zero _ _ _ _ (show (H % 11529215046068469760 : Nat) < 11529215046068469760
    by omega)]
  dsimp only
  have eu : u64 ((H % 11529215046068469760 * 2^64 + L / 2^64) / 11529215046068469760)
      = (H % 11529215046068469760 * 2^64 + L / 2^64) / 11529215046068469760 := by
    simp only [u64]
    omega
  rw [eu]
  have k1 : H * 2^64 + L / 2^64 = (digit * 2^128 + lo) * 2^60 := by omega
  have k3 : H / 11529215046068469760 * 2^64
      + (H % 11529215046068469760 * 2^64 + L / 2^64) / 11529215046068469760
      = (H * 2^64 + L / 2^64) / 11529215046068469760 := by omega
  have k2 : ((digit * 2^128 + lo) * 2^60) / 11529215046068469760 = (digit * 2^128 + lo) / 10 := by omega
  omega

/-- The exact decimal value of a digit string, most significant digit
first (the mathematical value the fractional digits denote, scaled by
10^length). -/
def decDigitsVal (l : List Char) : Nat :=
  l.foldl (fun a c => a * 10 + (c.toNat - 48)) 0

theorem decDigitsVal_go (l : List Char) (a : Nat) :
    l.foldl (fun a c => a * 10 + (c.toNat - 48)) a
      = a * 10^l.length + decDigitsVal l := by
  induction l generalizing a with
  | nil => simp [decDigitsVal]
  | cons c t ih =>
    simp only [decDigitsVal, List.foldl_cons, List.length_cons]
    rw [ih (a * 10 + (c.toNat - 48)), ih (0 * 10 + (c.toNat - 48))]
    ring

theorem decDigitsVal_cons (c : Char) (t : List Char) :
    decDigitsVal (c :: t) = (c.toNat - 48) * 10^t.length + decDigitsVal t := by
  unfold decDigitsVal
  rw [List.foldl_cons, decDigitsVal_go]
  rw [Nat.zero_mul, Nat.zero_add]
  rfl

theorem decDigitsVal_lt (l : List Char) (h : ∀ c ∈ l, 48 ≤ c.toNat ∧ c.toNat ≤ 57) :
    decDigitsVal l < 10^l.length := by
  induction l with
  | nil => simp [decDigitsVal]
  | cons c t ih =>
    have hc := h c (by simp)
    have ht := ih (fun x hx => h x (by simp [hx]))
    rw [decDigitsVal_cons, List.length_cons, pow_succ]
    have h9 : c.toNat - 48 ≤ 9 := by omega
    calc (c.toNat - 48) * 10^t.length + decDigitsVal t
        ≤ 9 * 10^t.length + decDigitsVal t := by
          exact Nat.add_le_add_right (Nat.mul_le_mul_right _ h9) _
      _ < 9 * 10^t.length + 10^t.length := by omega
      _ = 10^t.length * 10 := by ring

/-- The nested floor identity behind the backward Horner loop:
`(a + b / c) / d = (a * c + b) / (c * d)`. -/
theorem nat_div_div_add (a b c d : Nat) (hc : 0 < c) :
    (a + b / c) / d = (a * c + b) / (c * d) := by
  rw [← Nat.div_div_eq_div_mul]
  congr 1
  rw [Nat.mul_comm a c]
  exact (Nat.mul_add_div hc a b).symm

/-- C7 counterexample: on the single fractional digit "1" the backward loop
yields `floor(2^128 / 10)`, whose remainder is 6/10 of an ULP; the
correctly rounded (nearest) 128-bit representation of 1/10 is
`floor(2^128/10 + 1/2) = (2^129 + 10) / 20`, one ULP higher, so the loop is
not correctly rounding. -/
theorem claim7_frac_not_nearest_cex :
    r256__fracAccum 10 ['1'] = 2^128 / 10 ∧ 2^128 % 10 = 6 ∧
    r256__fracAccum 10 ['1'] ≠ (2^129 + 10) / 20 := by
  refine ⟨by decide, by decide, by decide⟩

/-- C7 (amended): for every string of decimal fractional digits, the
backward `lo := r256__udiv256(lo, digit, 10, _)` loop of `r256FromString`
produces the TRUNCATED (floor) 128-bit fixed-point representation
`floor(value * 2^128 / 10^len)` of the exact fractional value denoted by
the digits, not the correctly rounded (nearest) one. -/
theorem claim7_frac_parse_truncates_amended (l : List Char)
    (h : ∀ c ∈ l, 48 ≤ c.toNat ∧ c.toNat ≤ 57) :
    r256__fracAccum 10 l = decDigitsVal l * 2^128 / 10^l.length := by
  induction l with
  | nil => simp [r256__fracAccum, decDigitsVal]
  | cons c t ih =>
    have hc := h c (by simp)
    have hrec := ih (fun x hx => h x (by simp [hx]))
    have hvlt : decDigitsVal t < 10^t.length :=
      decDigitsVal_lt t (fun x hx => h x (by simp [hx]))
    have haccb : r256__fracAccum 10 t < 2^128 := by
      rw [hrec]
      apply Nat.div_lt_of_lt_mul
      exact Nat.mul_lt_mul_of_pos_right hvlt (by norm_num)
    have hfd : r256__fracDigitVal c = c.toNat - 48 := by
      unfold r256__fracDigitVal
      rw [if_pos ⟨hc.1, hc.2⟩]
      rfl
    have hstep : r256__fracAccum 10 (c :: t)
        = (r256__udiv256 (r256__fracAccum 10 t) (r256__fracDigitVal c) 10).1 := rfl
    rw [hstep, hfd, r256__udiv256_ten _ _ haccb (by omega), hrec,
      decDigitsVal_cons, List.length_cons, pow_succ]
    rw [nat_div_div_add _ _ _ _ (Nat.pos_pow_of_pos t.length (by norm_num))]
    congr 1
    ring

theorem claim7_frac_parse_truncates_amended_witness :
    (∀ c ∈ ['1', '2', '5'], 48 ≤ c.toNat ∧ c.toNat ≤ 57) ∧
    r256__fracAccum 10 ['1', '2', '5']
      = decDigitsVal ['1', '2', '5'] * 2^128 / 10^(['1', '2', '5'] : List Char).length :=
  ⟨by decide, claim7_frac_parse_truncates_amended ['1', '2', '5'] (by decide)⟩

/-! ## Formatter buffer contract -/

theorem r256__writeAll_pos (cap : Nat) (cs : List Char) : ∀ st : R256WB,
    (r256__writeAll cap st cs).pos = st.pos + cs.length := by
  induction cs with
  | nil =>
    intro st
    simp [r256__writeAll]
  | cons c t ih =>
    intro st
    simp only [r256__writeAll]
    rw [ih]
    unfold r256__write
    split <;> dsimp only <;> simp +arith [List.length_cons]

theorem r256__writeAll_out (cap : Nat) (cs : List Char) : ∀ (l : List Char) (p : Nat),
    (r256__writeAll cap ⟨l, p⟩ cs).out = l ++ cs.take (cap - p) := by
  induction cs with
  | nil =>
    intro l p
    simp [r256__writeAll]
  | cons c t ih =>
    intro l p
    simp only [r256__writeAll, r256__write]
    by_cases h : p < cap
    · rw [if_pos h]
      rw [ih]
      rw [List.append_assoc]
      congr 1
      rw [show cap - p = (cap - (p + 1)) + 1 by omega]
      rfl
    · rw [if_neg h]
      rw [ih]
      rw [show cap - p = 0 by omega, show cap - (p + 1) = 0 by omega]
      simp

/-- Running the formatter is taking a prefix of the emitted characters and
terminating it with NUL; the return value counts all emitted characters. -/
theorem r256__format_run (dstSize : Nat) (v : R256) (fmt : R256ToStringFormat) :
    r256__format dstSize v fmt =
      ((r256__formatChars v fmt).take (dstSize - 1) ++ [Char.ofNat 0],
       (r256__formatChars v fmt).length) := by
  unfold r256__format
  dsimp only
  rw [show (r256__writeAll (dstSize - 1) ⟨[], 0⟩ (r256__formatChars v fmt)).out
      = [] ++ (r256__formatChars v fmt).take (dstSize - 1 - 0) from
    r256__writeAll_out _ _ [] 0]
  rw [r256__writeAll_pos]
  simp

theorem r256__fracCarry_spec (l : List Char) :
    (r256__fracCarry l).1.length = l.length ∧ (r256__fracCarry l).2 ≤ 1 := by
  induction l with
  | nil => simp [r256__fracCarry]
  | cons c t ih =>
    simp only [r256__fracCarry]
    split
    · simp
    · simp only [List.length_cons]
      omega

theorem r256__fracLoop_spec (fp pz : Bool) : ∀ (fuel lo : Nat) (acc : List Char),
    (r256__fracLoop fp pz fuel lo acc).1.length ≤ acc.length + fuel ∧
    (r256__fracLoop fp pz fuel lo acc).2 ≤ 1 := by
  intro fuel
  induction fuel with
  | zero =>
    intro lo acc
    simp only [r256__fracLoop]
    split
    · split
      · have h1 := r256__fracCarry_spec acc.reverse
        rw [List.length_reverse] at h1
        constructor
        · dsimp only
          rw [List.length_reverse]
          omega
        · dsimp only
          omega
      · simp
    · simp
  | succ n ih =>
    intro lo acc
    simp only [r256__fracLoop]
    split
    · have h := ih (r256__umul256 lo 10).lo (acc ++ [Char.ofNat ((r256__umul256 lo 10).hi + 48)])
      constructor
      · refine Nat.le_trans h.1 ?_
        simp +arith [List.length_append]
      · exact h.2
    · simp

theorem r256__wholeDigits_len : ∀ (fuel n k : Nat), n < 10^k → 1 ≤ k → k ≤ fuel →
    (r256__wholeDigits fuel n).length ≤ k := by
  intro fuel
  induction fuel with
  | zero =>
    intro n k _ _ _
    simp [r256__wholeDigits]
  | succ f ih =>
    intro n k hn hk hkf
    simp only [r256__wholeDigits]
    split
    · simpa using hk
    · rename_i hq
      have hn10 : 10 ≤ n := by
        by_contra hlt
        exact hq (by omega)
      have hk2 : 2 ≤ k := by
        by_contra hlt
        have h1 : k = 1 := by omega
        subst h1
        simp at hn
        omega
      have hrec := ih (n / 10) (k - 1)
        (by
          have hks : k = (k - 1) + 1 := by omega
          rw [hks, pow_succ] at hn
          have hB : 0 < 10^(k-1) := Nat.pos_pow_of_pos _ (by norm_num)
          omega)
        (by omega) (by omega)
      simp only [List.length_cons]
      omega

/-- With a well-formed operand the magnitude's integer limb is at most
2^127 (the C formatter negates a negative value in place first). -/
theorem r256__abs_hi_le {v : R256} (h : v.wf) :
    (if r256IsNeg v then r256__neg v else v).hi ≤ 2^127 := by
  obtain ⟨h1, h2⟩ := h
  by_cases hn : r256IsNeg v = true
  · have hge : 2^127 ≤ v.hi := by
      simp only [r256IsNeg, u128, decide_eq_true_eq] at hn
      omega
    rw [hn, if_pos rfl]
    simp only [r256__neg, u128Not, u128]
    split <;> dsimp only <;> omega
  · have hlt : v.hi < 2^127 := by
      simp only [r256IsNeg, u128, decide_eq_true_eq] at hn
      omega
    simp only [hn, Bool.false_eq_true, if_false]
    omega

/-- Character count of the default-format output: at most 80 (one sign,
at most 39 whole digits, the separator, at most 39 fractional digits; no
padding since the default width is zero). -/
theorem r256__formatChars_default_len {v : R256} (h : v.wf) :
    (r256__formatChars v R256__defaultFormat).length ≤ 80 := by
  have habs := r256__abs_hi_le h
  unfold r256__formatChars R256__defaultFormat
  dsimp only
  simp only [show ((-1 : Int) < 0) = True from by norm_num,
    show ((0 : Int) < 0) = False from by norm_num,
    if_true, if_false]
  try dsimp only
  simp only [show (decide ((39 : Nat) ≠ 0)) = true from by decide,
    show (decide True) = true from by decide,
    Bool.false_eq_true, eq_self_iff_true, false_or, or_false, or_true, true_or,
    show ((39 : Nat) ≠ 0) = True from by norm_num, and_true, true_and,
    show (R256ToStringSign.dfl = R256ToStringSign.plus) = False from by simp,
    show (R256ToStringSign.dfl = R256ToStringSign.space) = False from by simp,
    if_true, if_false]
  try dsimp only
  set tmp := if r256IsNeg v = true then r256__neg v else v with htmp
  have hfrac := r256__fracLoop_spec false true 39 tmp.lo []
  simp only [List.length_nil, Nat.zero_add] at hfrac
  by_cases hlo : tmp.lo ≠ 0
  · rw [if_pos hlo, if_pos hlo]
    have hwhole :
        (r256__wholeDigits 40
          (u128 (tmp.hi + (r256__fracLoop false true 39 tmp.lo []).2))).length ≤ 39 := by
      apply r256__wholeDigits_len 40 _ 39 _ (by norm_num) (by norm_num)
      have hm : u128 (tmp.hi + (r256__fracLoop false true 39 tmp.lo []).2)
          ≤ tmp.hi + (r256__fracLoop false true 39 tmp.lo []).2 := Nat.mod_le _ _
      have h127 : (2:Nat)^127 + 1 < 10^39 := by norm_num
      omega
    by_cases hsign : r256IsNeg v = true <;>
      simp only [hsign, Bool.false_eq_true, if_true, if_false] <;>
      simp only [List.length_append, List.length_reverse, List.length_replicate,
        List.length_cons, List.length_nil] <;>
      omega
  · rw [if_neg hlo, if_neg hlo]
    have hwhole : (r256__wholeDigits 40 (u128 (tmp.hi + 0))).length ≤ 39 := by
      apply r256__wholeDigits_len 40 _ 39 _ (by norm_num) (by norm_num)
      have hm : u128 (tmp.hi + 0) ≤ tmp.hi + 0 := Nat.mod_le _ _
      have h127 : (2:Nat)^127 + 1 < 10^39 := by norm_num
      omega
    by_cases hsign : r256IsNeg v = true <;>
      simp only [hsign, Bool.false_eq_true, if_true, if_false] <;>
      simp only [List.length_append, List.length_reverse, List.length_replicate,
        List.length_cons, List.length_nil] <;>
      omega

/-- C8: the `r256ToString` buffer contract: at most `dstSize` bytes are
stored including the final NUL; what is stored (NUL aside) is a prefix of
the full formatted string (the output produced when the buffer suffices);
the return value is the full string's length regardless of `dstSize`; and
the full output including the NUL never exceeds 82 bytes with the default
format. -/
theorem claim8_tostring_buffer_contract (v : R256) (dstSize : Nat)
    (hv : v.wf) (hs : 1 ≤ dstSize) :
    (r256ToString dstSize v).1.length ≤ dstSize ∧
    (r256ToString dstSize v).1.getLast? = some (Char.ofNat 0) ∧
    (r256ToString dstSize v).1.dropLast <+:
      (r256ToString ((r256ToString dstSize v).2 + 1) v).1.dropLast ∧
    (∀ dstSize2 : Nat, (r256ToString dstSize2 v).2 = (r256ToString dstSize v).2) ∧
    (r256ToString ((r256ToString dstSize v).2 + 1) v).1.length
      = (r256ToString dstSize v).2 + 1 ∧
    (r256ToString dstSize v).2 + 1 ≤ 82 := by
  have hrun : ∀ d : Nat, r256ToString d v =
      ((r256__formatChars v R256__defaultFormat).take (d - 1) ++ [Char.ofNat 0],
       (r256__formatChars v R256__defaultFormat).length) := by
    intro d
    unfold r256ToString
    exact r256__format_run d v R256__defaultFormat
  have hlen := r256__formatChars_default_len hv
  simp only [hrun]
  try dsimp only
  refine ⟨?_, ?_, ?_, fun _ => trivial, ?_, ?_⟩
  · simp only [List.length_append, List.length_take, List.length_singleton]
    omega
  · exact List.getLast?_concat _
  · simp only [List.dropLast_concat, Nat.add_sub_cancel, List.take_length]
    exact List.take_prefix _ _
  · simp only [List.length_append, List.length_take, List.length_singleton,
      Nat.add_sub_cancel, List.take_length]
  · omega

theorem claim8_tostring_buffer_contract_witness :
    R256_max.wf ∧ 1 ≤ 3 ∧ (r256ToString 3 R256_max).1.length ≤ 3 :=
  ⟨by decide, by decide, (claim8_tostring_buffer_contract R256_max 3 (by decide) (by decide)).1⟩

/-- C1 is violated by the code at v = 9 * 2^-128 (lo = 9, hi = 0):
`r256__format` with precision 39 emits the 39 rounded fractional digits of
9/2^128, namely "0.000000000000000000000000000000000000026" (the exact
fraction is 26.44... * 10^-39, and the remaining low bits are below one
half, so no round-up).  `r256FromString` then truncates 26/10^39 to
floor(26 * 2^128 / 10^39) = 8 ULP, so the round trip returns lo = 8, not
the original lo = 9. -/
theorem claim1_roundtrip_fails :
    (r256FromString (r256ToStringOpt 100 ⟨9, 0⟩ ⟨.dfl, 0, 39, false, false, false⟩).1).1
      = (⟨8, 0⟩ : R256) ∧ (⟨8, 0⟩ : R256) ≠ ⟨9, 0⟩ := by
  refine ⟨by decide, by decide⟩

theorem claim9_div_overflow_saturates_amended_witness :
    (⟨0, 2^126⟩ : R256).wf ∧ (⟨2^126, 0⟩ : R256).wf ∧
    ¬((⟨2^126, 0⟩ : R256).lo = 0 ∧ (⟨2^126, 0⟩ : R256).hi = 0) ∧
    2^128 * (⟨2^126, 0⟩ : R256).absN ≤ (⟨0, 2^126⟩ : R256).absN ∧
    r256Div ⟨0, 2^126⟩ ⟨2^126, 0⟩ =
      (if (r256IsNeg ⟨0, 2^126⟩ != r256IsNeg ⟨2^126, 0⟩) = true
       then r256__neg R256_max else R256_max) :=
  ⟨by decide, by decide, by decide, by decide,
    claim9_div_overflow_saturates_amended.1 ⟨0, 2^126⟩ ⟨2^126, 0⟩
      (by decide) (by decide) (by decide) (by decide)⟩

end R256Spec
